import Mathlib

/-!
Verification of the mysql-shell core value model and its operations: the
tagged value type (`Value`), its canonical textual description (`descr`),
the `Table_crud_definition::map_table_value` narrowing conversion, the
parse of the canonical form, the result-set iteration contract, the dba
bridge member surface, the `createCluster` option validation, and the
UUID time-field monotonicity.
-/

namespace MysqlShell

/-- An object bridge handle, as seen by the value layer: either an
`Expression` bridge carrying its textual payload (`get_data`), or some
other bridge identified by its class name. -/
inductive Bridge where
  | expression (data : String)
  | other (className : String)
deriving DecidableEq, Repr

/-- The tagged value (`shcore::Value`): a discriminated value with exactly
one of the spec's variants.  `vfloat m e` models an IEEE-754 double by the
decimal it prints as, `m / 10^(e+1)` (sign and digits kept exactly);
`mapref` keeps the entries of its (still-alive) target; `vfunction` keeps
an opaque name for the callable. -/
inductive Value where
  | undefined : Value
  | vnull : Value
  | vbool (b : Bool) : Value
  | vint (i : Int) : Value
  | vuint (n : Nat) : Value
  | vfloat (m : Int) (e : Nat) : Value
  | vstring (s : String) : Value
  | vobject (b : Bridge) : Value
  | varray (xs : List Value) : Value
  | vmap (entries : List (String × Value)) : Value
  | mapref (entries : List (String × Value)) : Value
  | vfunction (name : String) : Value
deriving Repr

/-- The decimal digit character for `d < 10`. -/
def digitChar (d : Nat) : Char :=
  match d with
  | 0 => '0' | 1 => '1' | 2 => '2' | 3 => '3' | 4 => '4'
  | 5 => '5' | 6 => '6' | 7 => '7' | 8 => '8' | _ => '9'

/-- Decimal digits of `n`, most significant first, with explicit fuel so
that the definition is structural (the fuel `n+1` always suffices). -/
def natToCharsAux : Nat → Nat → List Char
  | 0, _ => []
  | fuel + 1, n =>
    if n < 10 then [digitChar n]
    else natToCharsAux fuel (n / 10) ++ [digitChar (n % 10)]

/-- Decimal digits of `n`, most significant first. -/
def natToChars (n : Nat) : List Char :=
  natToCharsAux (n + 1) n

/-- Decimal rendering of an integer (a leading '-' for negatives). -/
def intToChars (i : Int) : List Char :=
  if i < 0 then '-' :: natToChars i.natAbs else natToChars i.natAbs

/-- JSON-style escaping of one character inside a double-quoted string. -/
def escChar (c : Char) : List Char :=
  if c = '"' then ['\\', '"']
  else if c = '\\' then ['\\', '\\']
  else if c = '\n' then ['\\', 'n']
  else if c = '\t' then ['\\', 't']
  else if c = '\r' then ['\\', 'r']
  else [c]

/-- JSON-style escaping of a character sequence. -/
def escList : List Char → List Char
  | [] => []
  | c :: cs => escChar c ++ escList cs

/-- A double-quoted, JSON-escaped string, as characters. -/
def quoteChars (s : String) : List Char :=
  '"' :: (escList s.data ++ ['"'])

/-- The exact fractional digits of `f`, left-padded with zeros to `len`
digits (meaningful when `f < 10^len`). -/
def fracChars (f : Nat) (len : Nat) : List Char :=
  List.replicate (len - (natToChars f).length) '0' ++ natToChars f

/-- The decimal text of the double modelled by `m / 10^(e+1)`: sign,
integer part, '.', exactly `e+1` fractional digits. -/
def floatChars (m : Int) (e : Nat) : List Char :=
  (if m < 0 then ['-'] else []) ++
    natToChars (m.natAbs / 10 ^ (e + 1)) ++
    '.' :: fracChars (m.natAbs % 10 ^ (e + 1)) (e + 1)

/-- Lexicographic comparison by code point: `a` no later than `b`. -/
def keyLeB : List Char → List Char → Bool
  | [], _ => true
  | _ :: _, [] => false
  | x :: xs, y :: ys =>
    if x.toNat < y.toNat then true
    else if y.toNat < x.toNat then false
    else keyLeB xs ys

/-- Strict lexicographic comparison by code point. -/
def keyLtB : List Char → List Char → Bool
  | [], [] => false
  | [], _ :: _ => true
  | _ :: _, [] => false
  | x :: xs, y :: ys =>
    if x.toNat < y.toNat then true
    else if y.toNat < x.toNat then false
    else keyLtB xs ys

/-- The order map entries are emitted in: lexicographic on keys. -/
def entryLe (p q : String × List Char) : Prop :=
  keyLeB p.1.data q.1.data = true

instance : DecidableRel entryLe :=
  fun p q => inferInstanceAs (Decidable (keyLeB p.1.data q.1.data = true))

/-- Rendered map entries, sorted by key (lexicographic, stable). -/
def sortEntries (l : List (String × List Char)) : List (String × List Char) :=
  List.insertionSort entryLe l

/-- Join rendered map entries as `"k": v` separated by `", "`. -/
def joinEntries : List (String × List Char) → List Char
  | [] => []
  | [(k, v)] => quoteChars k ++ ':' :: ' ' :: v
  | (k, v) :: rest => quoteChars k ++ ':' :: ' ' :: v ++ ',' :: ' ' :: joinEntries rest

mutual

/-- The canonical textual description of a value (`shcore::Value::descr`):
maps as `\x7b"k": v, ...\x7d` with keys emitted in lexicographic order,
arrays as `[v,...]`, strings double-quoted with JSON-style escapes,
booleans `true`/`false`, null as `null`, objects by their class marker. -/
def descrChars : Value → List Char
  | .undefined => "undefined".data
  | .vnull => "null".data
  | .vbool b => if b then "true".data else "false".data
  | .vint i => intToChars i
  | .vuint n => natToChars n
  | .vfloat m e => floatChars m e
  | .vstring s => quoteChars s
  | .vobject b =>
    match b with
    | .expression _ => "<Expression>".data
    | .other c => '<' :: (c.data ++ ['>'])
  | .varray xs => '[' :: (descrElems xs ++ [']'])
  | .vmap l => '\x7b' :: (joinEntries (sortEntries (renderEntries l)) ++ ['\x7d'])
  | .mapref l => '\x7b' :: (joinEntries (sortEntries (renderEntries l)) ++ ['\x7d'])
  | .vfunction f => '<' :: ("Function:".data ++ f.data ++ ['>'])

/-- Array elements of `descr`, comma-separated (no spaces). -/
def descrElems : List Value → List Char
  | [] => []
  | [x] => descrChars x
  | x :: y :: xs => descrChars x ++ ',' :: descrElems (y :: xs)

/-- Each map entry rendered to (key, description of the value). -/
def renderEntries : List (String × Value) → List (String × List Char)
  | [] => []
  | (k, v) :: rest => (k, descrChars v) :: renderEntries rest

end

/-- The canonical textual description, as a string. -/
def descr (v : Value) : String :=
  ⟨descrChars v⟩

/-- The typed value accepted by a table CRUD operation
(`::mysqlx::TableValue`); `texpression` is the `TExpression` kind. -/
inductive TableValue where
  | tnull : TableValue
  | tbool (b : Bool) : TableValue
  | tstring (s : String) : TableValue
  | tsint (i : Int) : TableValue
  | tuint (n : Nat) : TableValue
  | tdouble (m : Int) (e : Nat) : TableValue
  | texpression (s : String) : TableValue
deriving DecidableEq, Repr

/-- `Table_crud_definition::map_table_value`, transcribed case by case from
the source switch; `Except.error` carries the `ArgumentError` message. -/
def map_table_value : Value → Except String TableValue
  | .undefined => .error "Invalid value"
  | .vnull => .ok .tnull
  | .vbool b => .ok (.tbool b)
  | .vstring s => .ok (.tstring s)
  | .vint i => .ok (.tsint i)
  | .vuint n => .ok (.tuint n)
  | .vfloat m e => .ok (.tdouble m e)
  | .vobject b =>
    match b with
    | .expression d =>
      if d.isEmpty then .ok (.texpression d)
      else .error "Expressions can not be empty."
    | .other c =>
      .error ("Unsupported value received: " ++ descr (.vobject (.other c)) ++ ".")
  | .varray xs => .error ("Unsupported value received: " ++ descr (.varray xs))
  | .vmap l => .error ("Unsupported value received: " ++ descr (.vmap l))
  | .mapref l => .error ("Unsupported value received: " ++ descr (.mapref l))
  | .vfunction f => .error ("Unsupported value received: " ++ descr (.vfunction f))

/-- Modelled from the spec: the member list of the `dba` object bridge
(the cluster-admin facade; its implementation, `mod_dba`, is not part of
this tree — only the validation corpus naming its members is).  Names in
the corpus order. -/
def dbaMembers : List String :=
  ["createCluster", "deleteSandboxInstance", "deploySandboxInstance",
   "getCluster", "help", "killSandboxInstance", "resetSession",
   "startSandboxInstance", "checkInstanceConfiguration",
   "stopSandboxInstance", "dropMetadataSchema", "configureLocalInstance",
   "verbose", "rebootClusterFromCompleteOutage"]

/-- An option value as passed to `dba.createCluster`: a string or a
boolean. -/
inductive OptValue where
  | str (s : String)
  | boolean (b : Bool)
deriving DecidableEq, Repr

/-- First binding of `key` in the options map. -/
def lookupOpt : List (String × OptValue) → String → Option OptValue
  | [], _ => none
  | (k, v) :: rest, key => if k = key then some v else lookupOpt rest key

/-- The option keys `createCluster` recognizes. -/
def recognizedCreateClusterKeys : List String :=
  ["memberSslMode", "adoptFromGR", "ipWhitelist"]

/-- Modelled from the spec: the non-SSL option checks of
`dba.createCluster` (unknown keys, empty ipWhitelist). -/
def restCreateClusterChecks (opts : List (String × OptValue)) :
    Except String Unit :=
  match (opts.filter fun p => !(recognizedCreateClusterKeys.contains p.1)) with
  | [] =>
    match lookupOpt opts "ipWhitelist" with
    | some (.str w) =>
      if w.isEmpty then
        .error "Invalid value for ipWhitelist, string value cannot be empty."
      else .ok ()
    | _ => .ok ()
  | bad =>
    .error ("Invalid values in the options: " ++
      String.intercalate ", " (bad.map (·.1)))

/-- Modelled from the spec: option validation of `dba.createCluster`
(`mod_dba` is not part of this tree).  Following the spec's order, the
`memberSslMode` value is validated against `AUTO, DISABLED, REQUIRED`
first, then its mutual exclusion with `adoptFromGR`, then the remaining
checks. -/
def checkCreateClusterOptions (opts : List (String × OptValue)) :
    Except String Unit :=
  match lookupOpt opts "memberSslMode" with
  | some (.str v) =>
    if v == "AUTO" || v == "DISABLED" || v == "REQUIRED" then
      match lookupOpt opts "adoptFromGR" with
      | some (.boolean true) =>
        .error "Cannot use memberSslMode option if adoptFromGR is set to true."
      | _ => restCreateClusterChecks opts
    else
      .error "Invalid value for memberSslMode option. Supported values: AUTO,DISABLED,REQUIRED."
  | _ => restCreateClusterChecks opts

/-- Modelled from the spec: the state of the UUID generator's logical
clock (`uuid_gen` is documented in `src/common/uuid/doc/uuid.txt` but its
implementation is not part of this tree).  `last` is the 64-bit time of
the most recently issued UUID. -/
structure UuidGen where
  last : Nat

/-- Modelled from the spec: one `generate` call at system clock `clock`.
If the clock has not advanced past the last issued time (a call within the
clock's granularity), the logical time borrows from the future: the issued
64-bit time is `max clock (last + 1)`. -/
def generateTime (clock : Nat) (g : UuidGen) : Nat × UuidGen :=
  (max clock (g.last + 1), ⟨max clock (g.last + 1)⟩)

/-- The 64-bit times issued by a sequence of `generate` calls whose system
clock readings are `clocks`. -/
def runGen (g : UuidGen) : List Nat → List Nat
  | [] => []
  | c :: cs => (generateTime c g).1 :: runGen (generateTime c g).2 cs

/-- The version bits OR-ed into `TIME_HI` (`timestamp >> 48 | VERSION`). -/
def uuidVersionBits : Nat := 4096

/-- `TIME_LOW`: the low 32 bits of the issued time. -/
def timeLow (t : Nat) : Nat := t % 2 ^ 32

/-- `TIME_MID`: the middle 16 bits of the issued time. -/
def timeMid (t : Nat) : Nat := t / 2 ^ 32 % 2 ^ 16

/-- `TIME_HI_AND_VER`: the high 16 bits of the issued time, with the UUID
version OR-ed in. -/
def timeHiVer (t : Nat) : Nat := t / 2 ^ 48 ||| uuidVersionBits

/-- The 64-bit field `TIME_LOW | TIME_MID | TIME_HI` read back from a UUID
generated at time `t` (fields concatenated, low to high). -/
def timeField (t : Nat) : Nat :=
  timeLow t + 2 ^ 32 * timeMid t + 2 ^ 48 * timeHiVer t

/-- Modelled from the spec: a result-set cursor (`mod_result` is not part
of this tree; only its unit tests are).  `cols` are the column names in
column order, `rows` the remaining rows (values in column order),
`fetched` the `fetched_row_count` member. -/
structure Resultset where
  cols : List String
  rows : List (List Value)
  fetched : Nat
deriving Repr

/-- One row converted for `next`/`all`: with raw = true an Array in column
order, otherwise a Map from column name to value (insertion order =
column order). -/
def rowValue (raw : Bool) (cols : List String) (r : List Value) : Value :=
  if raw then .varray r else .vmap (cols.zip r)

/-- Modelled from the spec: `next(raw?)`: past the end it returns Null and
leaves `fetched_row_count` unchanged; otherwise it returns the converted
first remaining row and counts it.  An absent `raw` argument is `none` and
defaults to false. -/
def rsNext (raw : Option Bool) (rs : Resultset) : Value × Resultset :=
  match rs.rows with
  | [] => (.vnull, rs)
  | r :: rest =>
    (rowValue (raw.getD false) rs.cols r, ⟨rs.cols, rest, rs.fetched + 1⟩)

/-- Modelled from the spec: `all(raw?)`: the remaining rows as one Array,
all counted. -/
def rsAll (raw : Option Bool) (rs : Resultset) : Value × Resultset :=
  (.varray (rs.rows.map (rowValue (raw.getD false) rs.cols)),
   ⟨rs.cols, [], rs.fetched + rs.rows.length⟩)

/-- A row-fetching call on a result set. -/
inductive RsOp where
  | next (raw : Option Bool)
  | all (raw : Option Bool)

/-- One `next`/`all` call. -/
def rsStep (rs : Resultset) : RsOp → Value × Resultset
  | .next raw => rsNext raw rs
  | .all raw => rsAll raw rs

/-- A sequence of `next`/`all` calls: the returned values and the final
cursor. -/
def rsRun (rs : Resultset) : List RsOp → List Value × Resultset
  | [] => ([], rs)
  | op :: ops =>
    ((rsStep rs op).1 :: (rsRun (rsStep rs op).2 ops).1,
     (rsRun (rsStep rs op).2 ops).2)

/-- How many rows one call's returned value accounts for: a non-Null
`next` return is one row, an `all` return is its array length. -/
def opCount : RsOp → Value → Nat
  | .next _, .vnull => 0
  | .next _, _ => 1
  | .all _, .varray vs => vs.length
  | .all _, _ => 0

/-- Total rows accounted for by a trace of calls and their returns. -/
def traceCount : List RsOp → List Value → Nat
  | op :: ops, v :: vs => opCount op v + traceCount ops vs
  | _, _ => 0

/-- The S5 scenario's freshly executed result set: the three rows of
`shell_tests.alpha` in column order `idalpha, alphacol`. -/
def s5Result : Resultset :=
  ⟨["idalpha", "alphacol"],
   [[.vint 1, .vstring "first"], [.vint 2, .vstring "second"],
    [.vint 3, .vstring "third"]], 0⟩

/-- The S5 scenario's calls: `next`, `next(false)`, `next(true)`,
`next(true)`. -/
def s5Ops : List RsOp :=
  [.next none, .next (some false), .next (some true), .next (some true)]

/-- Modelled from the spec: the metadata of one column as the X protocol
reports it (`mod_result` is not part of this tree). -/
structure ColumnInfo where
  catalog : String
  db : String
  table : String
  orgTable : String
  name : String
  orgName : String
  charset : Int
  length : Int
  typeCode : Int
  flags : Int
  decimal : Int

/-- The 11 metadata keys of a column-metadata map. -/
def metadataKeys : List String :=
  ["catalog", "db", "table", "org_table", "name", "org_name", "charset",
   "length", "type", "flags", "decimal"]

/-- The column-metadata map built for one column. -/
def columnMetadataMap (c : ColumnInfo) : List (String × Value) :=
  [("catalog", .vstring c.catalog), ("db", .vstring c.db),
   ("table", .vstring c.table), ("org_table", .vstring c.orgTable),
   ("name", .vstring c.name), ("org_name", .vstring c.orgName),
   ("charset", .vint c.charset), ("length", .vint c.length),
   ("type", .vint c.typeCode), ("flags", .vint c.flags),
   ("decimal", .vint c.decimal)]

/-- Modelled from the spec: `getColumnMetadata()` — one Map per column,
collected in an Array. -/
def getColumnMetadata (cols : List ColumnInfo) : Value :=
  .varray (cols.map fun c => .vmap (columnMetadataMap c))

/-- The numeric value of a decimal digit character. -/
def charVal (c : Char) : Nat := c.toNat - 48

/-- The number denoted by decimal digits, most significant first. -/
def digitsVal (ds : List Char) : Nat :=
  ds.foldl (fun a c => 10 * a + charVal c) 0

/-- Inverse of `escChar` on the character after a backslash. -/
def unescChar (c : Char) : Option Char :=
  if c = '"' then some '"'
  else if c = '\\' then some '\\'
  else if c = 'n' then some '\n'
  else if c = 't' then some '\t'
  else if c = 'r' then some '\r'
  else none

/-- Scan a double-quoted string body after the opening quote: unescape up
to the closing quote, return the body and the remaining input.  The flag
is true right after a backslash. -/
def parseStrAux : Bool → List Char → Option (List Char × List Char)
  | _, [] => none
  | true, e :: rest =>
    match unescChar e, parseStrAux false rest with
    | some u, some (s, r) => some (u :: s, r)
    | _, _ => none
  | false, c :: rest =>
    if c = '"' then some ([], rest)
    else if c = '\\' then parseStrAux true rest
    else
      match parseStrAux false rest with
      | some (s, r) => some (c :: s, r)
      | none => none

/-- Read a maximal run of decimal digits: its value, how many digits, and
the remaining input; fails on zero digits. -/
def parseDigits (cs : List Char) : Option (Nat × Nat × List Char) :=
  match cs.takeWhile Char.isDigit with
  | [] => none
  | ds => some (digitsVal ds, ds.length, cs.dropWhile Char.isDigit)

/-- `2^63`: the first value a decimal literal is read back unsigned at. -/
def int64Bound : Nat := 2 ^ 63

/-- The value an integer literal of magnitude `n` reads back as: signed
when negative or below `2^63`, unsigned otherwise. -/
def intResult (neg : Bool) (n : Nat) : Value :=
  if neg then .vint (-(n : Int))
  else if n < int64Bound then .vint (n : Int)
  else .vuint n

/-- The value a fractional literal with magnitude `m` and `fl` fractional
digits reads back as. -/
def floatResult (neg : Bool) (m : Nat) (fl : Nat) : Value :=
  .vfloat (if neg then -(m : Int) else (m : Int)) (fl - 1)

/-- Read a number (after an optional leading '-', already consumed when
`neg`): digits, then an optional '.' and fractional digits.  An integer
literal below `2^63` reads back as Integer, at or above it as UInteger; a
fractional literal reads back as the Float with those exact digits. -/
def parseNumber (neg : Bool) (cs : List Char) : Option (Value × List Char) :=
  match parseDigits cs with
  | none => none
  | some (n, _, rest) =>
    match rest with
    | '.' :: rest2 =>
      match parseDigits rest2 with
      | none => none
      | some (f, fl, rest3) => some (floatResult neg (n * 10 ^ fl + f) fl, rest3)
    | _ => some (intResult neg n, rest)

mutual

/-- Parse one value of the canonical `descr` form from the front of the
input. -/
def parseV : Nat → List Char → Option (Value × List Char)
  | 0, _ => none
  | fuel + 1, cs =>
    match cs with
    | [] => none
    | c :: rest =>
      if c = 'n' then
        match rest with
        | 'u' :: 'l' :: 'l' :: r => some (.vnull, r)
        | _ => none
      else if c = 't' then
        match rest with
        | 'r' :: 'u' :: 'e' :: r => some (.vbool true, r)
        | _ => none
      else if c = 'f' then
        match rest with
        | 'a' :: 'l' :: 's' :: 'e' :: r => some (.vbool false, r)
        | _ => none
      else if c = 'u' then
        match rest with
        | 'n' :: 'd' :: 'e' :: 'f' :: 'i' :: 'n' :: 'e' :: 'd' :: r =>
          some (.undefined, r)
        | _ => none
      else if c = '"' then
        match parseStrAux false rest with
        | some (s, r) => some (.vstring ⟨s⟩, r)
        | none => none
      else if c = '[' then
        if rest.head? = some ']' then some (.varray [], rest.tail)
        else
          match parseElems fuel rest with
          | some (vs, r) => some (.varray vs, r)
          | none => none
      else if c = '\x7b' then
        if rest.head? = some '\x7d' then some (.vmap [], rest.tail)
        else
          match parseEntries fuel rest with
          | some (l, r) => some (.vmap l, r)
          | none => none
      else if c = '-' then parseNumber true rest
      else if c.isDigit then parseNumber false (c :: rest)
      else none

/-- Parse the elements of a non-empty array up to and including the
closing bracket. -/
def parseElems : Nat → List Char → Option (List Value × List Char)
  | 0, _ => none
  | fuel + 1, cs =>
    match parseV fuel cs with
    | some (v, r) =>
      match r with
      | ']' :: r2 => some ([v], r2)
      | ',' :: r2 =>
        match parseElems fuel r2 with
        | some (vs, r3) => some (v :: vs, r3)
        | none => none
      | _ => none
    | none => none

/-- Parse the entries of a non-empty map up to and including the closing
brace. -/
def parseEntries : Nat → List Char →
    Option (List (String × Value) × List Char)
  | 0, _ => none
  | fuel + 1, cs =>
    match cs with
    | '"' :: cs2 =>
      match parseStrAux false cs2 with
      | some (k, r) =>
        match r with
        | ':' :: ' ' :: r2 =>
          match parseV fuel r2 with
          | some (v, r3) =>
            match r3 with
            | '\x7d' :: r4 => some ([(⟨k⟩, v)], r4)
            | ',' :: ' ' :: r4 =>
              match parseEntries fuel r4 with
              | some (l, r5) => some ((⟨k⟩, v) :: l, r5)
              | none => none
            | _ => none
          | none => none
        | _ => none
      | none => none
    | _ => none

end

/-- Parse a complete canonical `descr` text into a value. -/
def parse (s : String) : Option Value :=
  match parseV (s.data.length + 1) s.data with
  | some (v, []) => some v
  | _ => none

/-- Map entry keys strictly sorted lexicographically (so no duplicates). -/
def sortedKeysB : List (String × Value) → Bool
  | [] => true
  | [_] => true
  | (a, _) :: (b, w) :: rest =>
    keyLtB a.data b.data && sortedKeysB ((b, w) :: rest)

mutual

/-- Canonical values: no Object, Function or MapRef anywhere, Integer
payloads within signed 64-bit range, UInteger payloads in
`[2^63, 2^64)` (below `2^63` the decimal text reads back signed), and
every map's keys strictly lex-sorted (`descr` emits keys sorted, so only
those parse back unchanged). -/
def canonV : Value → Bool
  | .undefined => true
  | .vnull => true
  | .vbool _ => true
  | .vint i => decide (-(2 ^ 63 : Int) ≤ i) && decide (i < 2 ^ 63)
  | .vuint n => decide (2 ^ 63 ≤ n) && decide (n < 2 ^ 64)
  | .vfloat _ _ => true
  | .vstring _ => true
  | .vobject _ => false
  | .varray xs => canonElems xs
  | .vmap l => sortedKeysB l && canonEntries l
  | .mapref _ => false
  | .vfunction _ => false

/-- All array elements canonical. -/
def canonElems : List Value → Bool
  | [] => true
  | x :: xs => canonV x && canonElems xs

/-- All map entry values canonical. -/
def canonEntries : List (String × Value) → Bool
  | [] => true
  | (_, v) :: rest => canonV v && canonEntries rest

end

mutual

/-- Enough parser fuel for one value of the canonical form. -/
def needV : Value → Nat
  | .varray xs => 1 + needElems xs
  | .vmap l => 1 + needEntries l
  | _ => 1

/-- Enough parser fuel for a non-empty array's element list. -/
def needElems : List Value → Nat
  | [] => 1
  | x :: xs => 1 + max (needV x) (needElems xs)

/-- Enough parser fuel for a non-empty map's entry list. -/
def needEntries : List (String × Value) → Nat
  | [] => 1
  | (_, v) :: rest => 1 + max (needV v) (needEntries rest)

end

/-- The tails a canonical value is followed by inside a larger canonical
text: end of input, an array separator or closer, or a map separator or
closer. -/
def DelimOK (rest : List Char) : Prop :=
  rest = [] ∨ (∃ t, rest = ',' :: t) ∨ (∃ t, rest = ']' :: t) ∨
    (∃ t, rest = '\x7d' :: t)

/-- The parse-of-descr round-trip statement for one value. -/
def RTV (v : Value) : Prop :=
  canonV v = true → ∀ (f : Nat) (rest : List Char), needV v ≤ f →
    DelimOK rest → parseV f (descrChars v ++ rest) = some (v, rest)

/-- The round-trip statement for a non-empty array's element list. -/
def RTElems (xs : List Value) : Prop :=
  xs ≠ [] → canonElems xs = true → ∀ (f : Nat) (rest : List Char),
    needElems xs ≤ f → DelimOK rest →
    parseElems f (descrElems xs ++ ']' :: rest) = some (xs, rest)

/-- The round-trip statement for a non-empty map's entry list (in the
entry order of the text, before any sorting consideration). -/
def RTEntries (l : List (String × Value)) : Prop :=
  l ≠ [] → canonEntries l = true → ∀ (f : Nat) (rest : List Char),
    needEntries l ≤ f → DelimOK rest →
    parseEntries f (joinEntries (renderEntries l) ++ '\x7d' :: rest) =
      some (l, rest)

/-- C1: the source inverts the emptiness check in the `Expression` branch
of `map_table_value`: a non-empty expression payload is rejected with
"Expressions can not be empty." while the empty payload is accepted and
mapped to an Expression table value — the opposite of the documented
behavior (non-empty accepted carrying its payload, empty rejected). -/
theorem C1_expression_branch_inverted :
    map_table_value (.vobject (.expression "1+1")) =
      .error "Expressions can not be empty." ∧
    map_table_value (.vobject (.expression "")) = .ok (.texpression "") :=
  ⟨rfl, rfl⟩

/-- C2 counterexample: a Tagged Value of variant Undefined fails in
`map_table_value` with message "Invalid value", not with
"Unsupported value received: " followed by its descr, refuting the claim
for the Undefined variant. -/
theorem C2_undefined_message_differs :
    map_table_value .undefined = .error "Invalid value" ∧
    map_table_value .undefined ≠
      .error ("Unsupported value received: " ++ descr .undefined) := by
  refine ⟨rfl, ?_⟩
  intro h
  have h1 : (Except.error "Invalid value" : Except String TableValue) =
      .error ("Unsupported value received: " ++ descr .undefined) := h
  injection h1 with h2
  exact absurd h2 (by decide)

/-- C2 amended: for every payload, the Array, Map, MapRef and Function
variants fail in `map_table_value` with ArgumentError
"Unsupported value received: " followed by the value's descr, while the
Undefined variant fails with ArgumentError "Invalid value". -/
theorem C2_unsupported_variants_amended :
    (∀ xs, map_table_value (.varray xs) =
      .error ("Unsupported value received: " ++ descr (.varray xs))) ∧
    (∀ l, map_table_value (.vmap l) =
      .error ("Unsupported value received: " ++ descr (.vmap l))) ∧
    (∀ l, map_table_value (.mapref l) =
      .error ("Unsupported value received: " ++ descr (.mapref l))) ∧
    (∀ f, map_table_value (.vfunction f) =
      .error ("Unsupported value received: " ++ descr (.vfunction f))) ∧
    map_table_value .undefined = .error "Invalid value" :=
  ⟨fun _ => rfl, fun _ => rfl, fun _ => rfl, fun _ => rfl, rfl⟩

/-- C2 amended, concrete instance: the empty Array fails with the
unsupported-value message built from its descr "[]". -/
theorem C2_unsupported_variants_amended_witness :
    map_table_value (.varray []) = .error "Unsupported value received: []" :=
  C2_unsupported_variants_amended.1 []

/-- C10: for every object whose bridge is not an Expression,
`map_table_value` fails with "Unsupported value received: " followed by
the value's descr and a trailing period, and that message is distinct
from the period-less message the Array/Map/MapRef/Function variants are
reported with over the same descr text. -/
theorem C10_object_message_trailing_period :
    ∀ c : String,
      map_table_value (.vobject (.other c)) =
        .error ("Unsupported value received: " ++ descr (.vobject (.other c)) ++ ".") ∧
      map_table_value (.vobject (.other c)) ≠
        .error ("Unsupported value received: " ++ descr (.vobject (.other c))) := by
  intro c
  refine ⟨rfl, ?_⟩
  intro h
  have h1 : (Except.error ("Unsupported value received: " ++
        descr (.vobject (.other c)) ++ ".") : Except String TableValue) =
      .error ("Unsupported value received: " ++ descr (.vobject (.other c))) := h
  injection h1 with h2
  have h3 := congrArg String.length h2
  rw [String.length_append, String.length_append] at h3
  have h4 : ("." : String).length = 1 := rfl
  rw [h4] at h3
  omega

/-- C10, concrete instance: a session-class bridge object is rejected with
the period-terminated message. -/
theorem C10_object_message_trailing_period_witness :
    map_table_value (.vobject (.other "XSession")) =
      .error "Unsupported value received: <XSession>." ∧
    map_table_value (.vobject (.other "XSession")) ≠
      .error "Unsupported value received: <XSession>" :=
  ⟨(C10_object_message_trailing_period "XSession").1,
   (C10_object_message_trailing_period "XSession").2⟩

/-- C6: the dba bridge exposes exactly 14 distinct members and the name
set is exactly the specified one. -/
theorem C6_dba_member_surface :
    dbaMembers.length = 14 ∧ dbaMembers.Nodup ∧
    ∀ s : String, s ∈ dbaMembers ↔
      (s = "createCluster" ∨ s = "deleteSandboxInstance" ∨
       s = "deploySandboxInstance" ∨ s = "getCluster" ∨ s = "help" ∨
       s = "killSandboxInstance" ∨ s = "resetSession" ∨
       s = "startSandboxInstance" ∨ s = "checkInstanceConfiguration" ∨
       s = "stopSandboxInstance" ∨ s = "dropMetadataSchema" ∨
       s = "configureLocalInstance" ∨ s = "verbose" ∨
       s = "rebootClusterFromCompleteOutage") := by
  refine ⟨rfl, by decide, ?_⟩
  intro s
  simp [dbaMembers]

/-- C6, concrete instance: `verbose` is a dba member. -/
theorem C6_dba_member_surface_witness : "verbose" ∈ dbaMembers :=
  (C6_dba_member_surface.2.2 "verbose").mpr (by decide)

/-- C7 counterexample: with both an unsupported `memberSslMode` and
`adoptFromGR: true`, the call fails with the invalid-value message, so the
claim's second universal (any `memberSslMode` value together with
`adoptFromGR: true` gives the cannot-use message) fails here. -/
theorem C7_overlap_counterexample :
    checkCreateClusterOptions
        [("memberSslMode", .str "BAD"), ("adoptFromGR", .boolean true)] =
      .error "Invalid value for memberSslMode option. Supported values: AUTO,DISABLED,REQUIRED." ∧
    ("Invalid value for memberSslMode option. Supported values: AUTO,DISABLED,REQUIRED." : String) ≠
      "Cannot use memberSslMode option if adoptFromGR is set to true." :=
  ⟨rfl, by decide⟩

/-- C7 amended: a `memberSslMode` outside `{AUTO, DISABLED, REQUIRED}`
always fails with the invalid-value message; a supported `memberSslMode`
together with `adoptFromGR: true` fails with the cannot-use message. -/
theorem C7_createCluster_ssl_errors :
    (∀ opts v, lookupOpt opts "memberSslMode" = some (.str v) →
      (v == "AUTO" || v == "DISABLED" || v == "REQUIRED") = false →
      checkCreateClusterOptions opts =
        .error "Invalid value for memberSslMode option. Supported values: AUTO,DISABLED,REQUIRED.") ∧
    (∀ opts v, lookupOpt opts "memberSslMode" = some (.str v) →
      (v == "AUTO" || v == "DISABLED" || v == "REQUIRED") = true →
      lookupOpt opts "adoptFromGR" = some (.boolean true) →
      checkCreateClusterOptions opts =
        .error "Cannot use memberSslMode option if adoptFromGR is set to true.") := by
  constructor
  · intro opts v h1 h2
    simp [checkCreateClusterOptions, h1, h2]
  · intro opts v h1 h2 h3
    simp [checkCreateClusterOptions, h1, h2, h3]

/-- C7 amended, concrete instances: `memberSslMode: "BAD"` alone fails
with the invalid-value message; `memberSslMode: "AUTO"` with
`adoptFromGR: true` fails with the cannot-use message. -/
theorem C7_createCluster_ssl_errors_witness :
    checkCreateClusterOptions [("memberSslMode", .str "BAD")] =
      .error "Invalid value for memberSslMode option. Supported values: AUTO,DISABLED,REQUIRED." ∧
    checkCreateClusterOptions
        [("memberSslMode", .str "AUTO"), ("adoptFromGR", .boolean true)] =
      .error "Cannot use memberSslMode option if adoptFromGR is set to true." :=
  ⟨C7_createCluster_ssl_errors.1 _ "BAD" rfl (by decide),
   C7_createCluster_ssl_errors.2 _ "AUTO" rfl (by decide) rfl⟩

/-- `x ||| 2^k = x + 2^k` when `x < 2^k`: oring in bits above `x` is
addition. -/
theorem lor_two_pow_of_lt (x : Nat) : ∀ k : Nat, x < 2 ^ k →
    x ||| 2 ^ k = x + 2 ^ k := by
  induction x using Nat.binaryRec with
  | z => intro k _; simp
  | f b m ih =>
    intro k hk
    match k with
    | 0 =>
      have h0 : Nat.bit b m = 0 := Nat.lt_one_iff.mp hk
      rw [h0]
      simp
    | k + 1 =>
      have h2 : (2 : Nat) ^ (k + 1) = Nat.bit false (2 ^ k) := by
        simp [Nat.bit_val, Nat.pow_succ]
        ring
      have hm : m < 2 ^ k := Nat.bit_lt_two_pow_succ_iff.mp hk
      rw [h2, Nat.lor_bit, ih k hm]
      simp [Nat.bit_val, Nat.pow_succ]
      ring

theorem timeField_eq (t : Nat) (h : t < 2 ^ 60) :
    timeField t = t + 2 ^ 48 * uuidVersionBits := by
  have hdiv : t / 2 ^ 48 < 4096 := by omega
  have hlor : t / 2 ^ 48 ||| 2 ^ 12 = t / 2 ^ 48 + 2 ^ 12 :=
    lor_two_pow_of_lt (t / 2 ^ 48) 12 (by omega)
  have e3 : t / 2 ^ 32 / 2 ^ 16 = t / 2 ^ 48 := by
    rw [Nat.div_div_eq_div_mul]
    norm_num
  have e1 := Nat.div_add_mod t (2 ^ 32)
  have e2 := Nat.div_add_mod (t / 2 ^ 32) (2 ^ 16)
  rw [e3] at e2
  unfold timeField timeLow timeMid timeHiVer uuidVersionBits
  rw [show (4096 : Nat) = 2 ^ 12 from rfl, hlor]
  omega

theorem runGen_last_lt (cs : List Nat) :
    ∀ (g : UuidGen) (t : Nat), t ∈ runGen g cs → g.last < t := by
  induction cs with
  | nil => intro g t ht; simp [runGen] at ht
  | cons c cs ih =>
    intro g t ht
    rw [runGen] at ht
    rcases List.mem_cons.mp ht with h | h
    · subst h
      simp only [generateTime]
      omega
    · have := ih (generateTime c g).2 t h
      simp only [generateTime] at this
      omega

theorem runGen_chain (cs : List Nat) :
    ∀ g : UuidGen, List.Chain' (fun a b => a < b) (runGen g cs) := by
  induction cs with
  | nil => intro g; simp [runGen]
  | cons c cs ih =>
    intro g
    rw [runGen]
    refine List.chain'_cons'.mpr ⟨?_, ih _⟩
    intro y hy
    exact runGen_last_lt cs (generateTime c g).2 y (List.mem_of_mem_head? hy)

theorem chain_lt_timeField {l : List Nat} (hb : ∀ t ∈ l, t < 2 ^ 60)
    (hc : List.Chain' (fun a b => a < b) l) :
    List.Chain' (fun a b => timeField a < timeField b) l := by
  induction l with
  | nil => simp
  | cons a l ih =>
    rcases l with _ | ⟨b, l'⟩
    · simp
    · rw [List.chain'_cons] at hc ⊢
      refine ⟨?_, ih (fun t ht => hb t (List.mem_cons_of_mem _ ht)) hc.2⟩
      have ha := hb a (by simp)
      have hb2 := hb b (by simp)
      rw [timeField_eq a ha, timeField_eq b hb2]
      have := hc.1
      omega

/-- C9: the 64-bit time of successive UUIDs issued within one process is
strictly monotonic; when the issued times fit the timestamp range (below
`2^60`, so the version bits stay clear), the field
`TIME_LOW|TIME_MID|TIME_HI` read back from the UUIDs is strictly
monotonic as well; and a call whose clock reading has not advanced past
the last issued time borrows from the future, issuing `last + 1`. -/
theorem C9_uuid_time_monotonic :
    (∀ (g : UuidGen) (clocks : List Nat),
      List.Chain' (fun a b => a < b) (runGen g clocks)) ∧
    (∀ (g : UuidGen) (clocks : List Nat),
      (∀ t ∈ runGen g clocks, t < 2 ^ 60) →
      List.Chain' (fun a b => timeField a < timeField b) (runGen g clocks)) ∧
    (∀ (c : Nat) (g : UuidGen), c ≤ g.last →
      (generateTime c g).1 = g.last + 1) := by
  refine ⟨fun g clocks => runGen_chain clocks g, ?_, ?_⟩
  · intro g clocks hb
    exact chain_lt_timeField hb (runGen_chain clocks g)
  · intro c g h
    simp only [generateTime]
    omega

/-- C9, concrete instance: three calls with clock readings 100, 100, 50
issue times 100, 101, 102 — strictly monotonic, with the second and third
borrowing from the future. -/
theorem C9_uuid_time_monotonic_witness :
    List.Chain' (fun a b => a < b) (runGen ⟨0⟩ [100, 100, 50]) ∧
    List.Chain' (fun a b => timeField a < timeField b) (runGen ⟨0⟩ [100, 100, 50]) ∧
    (generateTime 100 ⟨100⟩).1 = 101 :=
  ⟨C9_uuid_time_monotonic.1 ⟨0⟩ [100, 100, 50],
   C9_uuid_time_monotonic.2.1 ⟨0⟩ [100, 100, 50] (by decide),
   C9_uuid_time_monotonic.2.2 100 ⟨100⟩ (by decide)⟩

theorem keyLeB_total : ∀ a b : List Char, keyLeB a b = true ∨ keyLeB b a = true := by
  intro a
  induction a with
  | nil => intro b; left; rfl
  | cons x xs ih =>
    intro b
    cases b with
    | nil => right; rfl
    | cons y ys =>
      simp only [keyLeB]
      rcases Nat.lt_trichotomy x.toNat y.toNat with h | h | h
      · left
        rw [if_pos h]
      · rw [if_neg (by omega), if_neg (by omega), if_neg (by omega),
          if_neg (by omega)]
        exact ih ys
      · right
        rw [if_pos h]

theorem keyLeB_trans : ∀ a b c : List Char,
    keyLeB a b = true → keyLeB b c = true → keyLeB a c = true := by
  intro a
  induction a with
  | nil => intro b c h1 h2; rfl
  | cons x xs ih =>
    intro b c h1 h2
    cases b with
    | nil => simp [keyLeB] at h1
    | cons y ys =>
      cases c with
      | nil => simp [keyLeB] at h2
      | cons z zs =>
        simp only [keyLeB] at h1 h2 ⊢
        rcases Nat.lt_trichotomy x.toNat y.toNat with hxy | hxy | hxy
        · rcases Nat.lt_trichotomy y.toNat z.toNat with hyz | hyz | hyz
          · rw [if_pos (by omega)]
          · rw [if_pos (by omega)]
          · rw [if_neg (by omega), if_pos hyz] at h2
            exact absurd h2 (by decide)
        · rw [if_neg (by omega), if_neg (by omega)] at h1
          rcases Nat.lt_trichotomy y.toNat z.toNat with hyz | hyz | hyz
          · rw [if_pos (by omega)]
          · rw [if_neg (by omega), if_neg (by omega)] at h2
            rw [if_neg (by omega), if_neg (by omega)]
            exact ih ys zs h1 h2
          · rw [if_neg (by omega), if_pos hyz] at h2
            exact absurd h2 (by decide)
        · rw [if_neg (by omega), if_pos hxy] at h1
          exact absurd h1 (by decide)

theorem char_eq_of_toNat_eq (a b : Char) (h : a.toNat = b.toNat) : a = b := by
  rw [← Char.ofNat_toNat a, ← Char.ofNat_toNat b, h]

theorem string_eq_of_data_eq (a b : String) (h : a.data = b.data) : a = b := by
  cases a
  cases b
  exact congrArg String.mk h

theorem keyLeB_antisymm : ∀ a b : List Char,
    keyLeB a b = true → keyLeB b a = true → a = b := by
  intro a
  induction a with
  | nil =>
    intro b h1 h2
    cases b with
    | nil => rfl
    | cons y ys => simp [keyLeB] at h2
  | cons x xs ih =>
    intro b h1 h2
    cases b with
    | nil => simp [keyLeB] at h1
    | cons y ys =>
      simp only [keyLeB] at h1 h2
      rcases Nat.lt_trichotomy x.toNat y.toNat with h | h | h
      · rw [if_neg (by omega), if_pos h] at h2
        exact absurd h2 (by decide)
      · rw [if_neg (by omega), if_neg (by omega)] at h1
        rw [if_neg (by omega), if_neg (by omega)] at h2
        have hc := char_eq_of_toNat_eq x y h
        have ht := ih ys h1 h2
        rw [hc, ht]
      · rw [if_neg (by omega), if_pos h] at h1
        exact absurd h1 (by decide)

theorem renderEntries_eq_map (l : List (String × Value)) :
    renderEntries l = l.map fun p => (p.1, descrChars p.2) := by
  induction l with
  | nil => rfl
  | cons p rest ih =>
    cases p
    simp [renderEntries, ih]

theorem sortEntries_sorted (l : List (String × List Char)) :
    List.Sorted entryLe (sortEntries l) := by
  haveI : IsTotal (String × List Char) entryLe :=
    ⟨fun a b => keyLeB_total a.1.data b.1.data⟩
  haveI : IsTrans (String × List Char) entryLe :=
    ⟨fun a b c => keyLeB_trans a.1.data b.1.data c.1.data⟩
  exact List.sorted_insertionSort entryLe l

theorem sortEntries_perm (l : List (String × List Char)) :
    (sortEntries l).Perm l :=
  List.perm_insertionSort entryLe l

theorem sorted_strict {l : List (String × List Char)}
    (hn : (l.map Prod.fst).Nodup) (hs : List.Sorted entryLe l) :
    List.Pairwise (fun p q : String × List Char => entryLe p q ∧ p.1 ≠ q.1) l := by
  have hne : List.Pairwise (fun p q : String × List Char => p.1 ≠ q.1) l :=
    List.pairwise_map.mp hn
  exact hs.and hne

theorem sortEntries_eq_of_perm {l₁ l₂ : List (String × List Char)}
    (hn : (l₁.map Prod.fst).Nodup) (hp : l₁.Perm l₂) :
    sortEntries l₁ = sortEntries l₂ := by
  haveI : IsAntisymm (String × List Char)
      (fun p q => entryLe p q ∧ p.1 ≠ q.1) :=
    ⟨fun a b h1 h2 =>
      absurd (string_eq_of_data_eq _ _ (keyLeB_antisymm _ _ h1.1 h2.1)) h1.2⟩
  have hperm : (sortEntries l₁).Perm (sortEntries l₂) :=
    (sortEntries_perm l₁).trans (hp.trans (sortEntries_perm l₂).symm)
  have hn₂ : (l₂.map Prod.fst).Nodup := ((hp.map Prod.fst).nodup_iff).mp hn
  have hs₁ : ((sortEntries l₁).map Prod.fst).Nodup :=
    (((sortEntries_perm l₁).map Prod.fst).nodup_iff).mpr hn
  have hs₂ : ((sortEntries l₂).map Prod.fst).Nodup :=
    (((sortEntries_perm l₂).map Prod.fst).nodup_iff).mpr hn₂
  exact List.eq_of_perm_of_sorted hperm
    (sorted_strict hs₁ (sortEntries_sorted l₁))
    (sorted_strict hs₂ (sortEntries_sorted l₂))

/-- C5: `descr` of a Map value emits the entries sorted lexicographically
by key, and (for maps without duplicate keys) the text is the same no
matter the insertion order of the entries. -/
theorem C5_map_descr_lex_sorted :
    (∀ l : List (String × Value),
      List.Sorted entryLe (sortEntries (renderEntries l))) ∧
    (∀ l₁ l₂ : List (String × Value), (l₁.map Prod.fst).Nodup → l₁.Perm l₂ →
      descr (.vmap l₁) = descr (.vmap l₂)) := by
  constructor
  · intro l
    exact sortEntries_sorted _
  · intro l₁ l₂ hn hp
    have hkeys : ((renderEntries l₁).map Prod.fst).Nodup := by
      rw [renderEntries_eq_map, List.map_map]
      exact hn
    have hperm : (renderEntries l₁).Perm (renderEntries l₂) := by
      rw [renderEntries_eq_map, renderEntries_eq_map]
      exact hp.map _
    have hse := sortEntries_eq_of_perm hkeys hperm
    show (⟨descrChars (.vmap l₁)⟩ : String) = ⟨descrChars (.vmap l₂)⟩
    simp only [descrChars]
    rw [hse]

/-- C5, concrete instance: the two insertion orders of the S5 row map
print identically, with keys emitted in lexicographic order. -/
theorem C5_map_descr_lex_sorted_witness :
    descr (.vmap [("idalpha", .vint 1), ("alphacol", .vstring "first")]) =
      descr (.vmap [("alphacol", .vstring "first"), ("idalpha", .vint 1)]) ∧
    descr (.vmap [("idalpha", .vint 1), ("alphacol", .vstring "first")]) =
      "\x7b\"alphacol\": \"first\", \"idalpha\": 1\x7d" :=
  ⟨C5_map_descr_lex_sorted.2 _ _ (by decide) (List.Perm.swap _ _ _), rfl⟩

theorem rsStep_fetched (rs : Resultset) (op : RsOp) :
    (rsStep rs op).2.fetched = rs.fetched + opCount op (rsStep rs op).1 := by
  cases op with
  | next raw =>
    simp only [rsStep, rsNext]
    cases hr : rs.rows with
    | nil => simp [opCount]
    | cons r rest =>
      cases hb : raw.getD false <;> simp [rowValue, opCount, hb]
  | all raw =>
    simp [rsStep, rsAll, opCount]

theorem rsRun_fetched (ops : List RsOp) :
    ∀ rs : Resultset, (rsRun rs ops).2.fetched =
      rs.fetched + traceCount ops (rsRun rs ops).1 := by
  induction ops with
  | nil => intro rs; simp [rsRun, traceCount]
  | cons op ops ih =>
    intro rs
    rw [rsRun, traceCount, ih (rsStep rs op).2]
    have := rsStep_fetched rs op
    omega

/-- C3: past the last row `next` returns Null and leaves
`fetched_row_count` unchanged; over remaining rows, `next` with raw absent
or false returns the Map from column name to value and `next(true)` the
Array in column order, each advancing `fetched_row_count` by one;
`fetched_row_count` always equals the initial count plus the rows
returned so far by `next`/`all`; and the S5 scenario shows the
`1, 2, 3, 3` progression with returns map, map, array, null. -/
theorem C3_resultset_next_contract :
    (∀ (rs : Resultset) (raw : Option Bool), rs.rows = [] →
      rsNext raw rs = (.vnull, rs)) ∧
    (∀ (rs : Resultset) (raw : Option Bool) r rest, rs.rows = r :: rest →
      (raw = none ∨ raw = some false) →
      rsNext raw rs = (.vmap (rs.cols.zip r), ⟨rs.cols, rest, rs.fetched + 1⟩)) ∧
    (∀ (rs : Resultset) (r : List Value) rest, rs.rows = r :: rest →
      rsNext (some true) rs = (.varray r, ⟨rs.cols, rest, rs.fetched + 1⟩)) ∧
    (∀ (rs : Resultset) (ops : List RsOp),
      (rsRun rs ops).2.fetched = rs.fetched + traceCount ops (rsRun rs ops).1) ∧
    ((rsRun s5Result (s5Ops.take 1)).2.fetched = 1 ∧
     (rsRun s5Result (s5Ops.take 2)).2.fetched = 2 ∧
     (rsRun s5Result (s5Ops.take 3)).2.fetched = 3 ∧
     (rsRun s5Result s5Ops).2.fetched = 3 ∧
     (rsRun s5Result s5Ops).1.map descr =
       ["\x7b\"alphacol\": \"first\", \"idalpha\": 1\x7d",
        "\x7b\"alphacol\": \"second\", \"idalpha\": 2\x7d",
        "[3,\"third\"]", "null"]) := by
  refine ⟨?_, ?_, ?_, fun rs ops => rsRun_fetched ops rs,
    rfl, rfl, rfl, rfl, rfl⟩
  · intro rs raw h
    simp [rsNext, h]
  · intro rs raw r rest h hraw
    have hb : raw.getD false = false := by
      rcases hraw with h1 | h1 <;> simp [h1]
    simp [rsNext, h, rowValue, hb]
  · intro rs r rest h
    simp [rsNext, h, rowValue]

/-- C3, concrete instances: the three `next` shapes on the S5 result set
and the null return past the end. -/
theorem C3_resultset_next_contract_witness :
    rsNext (some true) ⟨["idalpha", "alphacol"], [], 3⟩ =
      (.vnull, ⟨["idalpha", "alphacol"], [], 3⟩) ∧
    rsNext none s5Result =
      (.vmap [("idalpha", .vint 1), ("alphacol", .vstring "first")],
       ⟨["idalpha", "alphacol"],
        [[.vint 2, .vstring "second"], [.vint 3, .vstring "third"]], 1⟩) ∧
    rsNext (some true) s5Result =
      (.varray [.vint 1, .vstring "first"],
       ⟨["idalpha", "alphacol"],
        [[.vint 2, .vstring "second"], [.vint 3, .vstring "third"]], 1⟩) :=
  ⟨C3_resultset_next_contract.1 _ (some true) rfl,
   C3_resultset_next_contract.2.1 s5Result none _ _ rfl (Or.inl rfl),
   C3_resultset_next_contract.2.2.1 s5Result _ _ rfl⟩

/-- C4: `getColumnMetadata` returns an Array with one Map per column, and
every column's map carries exactly the 11 metadata keys, in the fixed
order, with no extras. -/
theorem C4_column_metadata_keys :
    (∀ cols : List ColumnInfo, getColumnMetadata cols =
      .varray (cols.map fun c => .vmap (columnMetadataMap c))) ∧
    (∀ cols : List ColumnInfo,
      (cols.map fun c => Value.vmap (columnMetadataMap c)).length = cols.length) ∧
    (∀ c : ColumnInfo, (columnMetadataMap c).map Prod.fst = metadataKeys) ∧
    metadataKeys.length = 11 ∧ metadataKeys.Nodup :=
  ⟨fun _ => rfl, fun cols => List.length_map cols _, fun _ => rfl, rfl,
   by decide⟩

/-- C4, concrete instance: the `idalpha` column of the S7 scenario. -/
theorem C4_column_metadata_keys_witness :
    (columnMetadataMap
        ⟨"def", "shell_tests", "alpha", "alpha", "idalpha", "idalpha",
         0, 11, 0, 0, 0⟩).map Prod.fst = metadataKeys :=
  C4_column_metadata_keys.2.2.1
    ⟨"def", "shell_tests", "alpha", "alpha", "idalpha", "idalpha",
     0, 11, 0, 0, 0⟩

theorem natToCharsAux_stable : ∀ (n f1 f2 : Nat), n < f1 → n < f2 →
    natToCharsAux f1 n = natToCharsAux f2 n := by
  intro n
  induction n using Nat.strong_induction_on with
  | _ n ih =>
    intro f1 f2 h1 h2
    cases f1 with
    | zero => omega
    | succ g1 =>
      cases f2 with
      | zero => omega
      | succ g2 =>
        simp only [natToCharsAux]
        by_cases h : n < 10
        · rw [if_pos h, if_pos h]
        · rw [if_neg h, if_neg h]
          have hd : n / 10 < n := Nat.div_lt_self (by omega) (by omega)
          rw [ih (n / 10) hd g1 g2 (by omega) (by omega)]

theorem natToChars_eq (n : Nat) : natToChars n =
    if n < 10 then [digitChar n]
    else natToChars (n / 10) ++ [digitChar (n % 10)] := by
  unfold natToChars
  rw [show natToCharsAux (n + 1) n =
    if n < 10 then [digitChar n]
    else natToCharsAux n (n / 10) ++ [digitChar (n % 10)] from rfl]
  by_cases h : n < 10
  · rw [if_pos h, if_pos h]
  · rw [if_neg h, if_neg h]
    have hd : n / 10 < n := Nat.div_lt_self (by omega) (by omega)
    rw [natToCharsAux_stable (n / 10) n (n / 10 + 1) (by omega) (by omega)]

theorem digitChar_isDigit (d : Nat) : (digitChar d).isDigit = true := by
  unfold digitChar
  split <;> decide

theorem charVal_digitChar (d : Nat) (h : d < 10) : charVal (digitChar d) = d := by
  interval_cases d <;> decide

theorem digitsVal_natToChars : ∀ n : Nat, digitsVal (natToChars n) = n := by
  intro n
  induction n using Nat.strong_induction_on with
  | _ n ih =>
    rw [natToChars_eq]
    by_cases h : n < 10
    · rw [if_pos h]
      show 10 * 0 + charVal (digitChar n) = n
      rw [charVal_digitChar n h]
      omega
    · rw [if_neg h]
      unfold digitsVal
      rw [List.foldl_append]
      have hd := ih (n / 10) (Nat.div_lt_self (by omega) (by omega))
      unfold digitsVal at hd
      rw [hd]
      show 10 * (n / 10) + charVal (digitChar (n % 10)) = n
      rw [charVal_digitChar _ (Nat.mod_lt _ (by omega))]
      omega

theorem natToChars_ne_nil (n : Nat) : natToChars n ≠ [] := by
  rw [natToChars_eq]
  by_cases h : n < 10
  · rw [if_pos h]
    simp
  · rw [if_neg h]
    simp

theorem natToChars_digits : ∀ n : Nat, ∀ c ∈ natToChars n, c.isDigit = true := by
  intro n
  induction n using Nat.strong_induction_on with
  | _ n ih =>
    rw [natToChars_eq]
    by_cases h : n < 10
    · rw [if_pos h]
      intro c hc
      simp at hc
      subst hc
      exact digitChar_isDigit n
    · rw [if_neg h]
      intro c hc
      rcases List.mem_append.mp hc with h1 | h1
      · exact ih (n / 10) (Nat.div_lt_self (by omega) (by omega)) c h1
      · simp at h1
        subst h1
        exact digitChar_isDigit _

theorem natToChars_length_le (n : Nat) : ∀ k : Nat, n < 10 ^ k → 1 ≤ k →
    (natToChars n).length ≤ k := by
  induction n using Nat.strong_induction_on with
  | _ n ih =>
    intro k hk h1
    rw [natToChars_eq]
    by_cases h : n < 10
    · rw [if_pos h]
      simpa using h1
    · rw [if_neg h]
      rw [List.length_append]
      have hk2 : 2 ≤ k := by
        by_contra hcon
        have hke : k = 1 := by omega
        subst hke
        simp at hk
        omega
      have hpow : (10 : Nat) ^ k = 10 ^ (k - 1) * 10 := by
        rw [← Nat.pow_succ]
        congr 1
        omega
      have hdiv : n / 10 < 10 ^ (k - 1) := by
        rw [Nat.div_lt_iff_lt_mul (by norm_num)]
        omega
      have := ih (n / 10) (Nat.div_lt_self (by omega) (by omega)) (k - 1)
        hdiv (by omega)
      simp only [List.length_cons, List.length_nil]
      omega

theorem digitsVal_replicate_zero_append (z : Nat) (l : List Char) :
    digitsVal (List.replicate z '0' ++ l) = digitsVal l := by
  induction z with
  | zero => simp
  | succ z ihz =>
    rw [List.replicate_succ, List.cons_append]
    exact ihz

theorem fracChars_digits (f len : Nat) :
    ∀ c ∈ fracChars f len, c.isDigit = true := by
  intro c hc
  rcases List.mem_append.mp hc with h1 | h1
  · have := List.eq_of_mem_replicate h1
    subst this
    decide
  · exact natToChars_digits f c h1

theorem fracChars_length (f len : Nat) (hf : f < 10 ^ len) (h1 : 1 ≤ len) :
    (fracChars f len).length = len := by
  unfold fracChars
  rw [List.length_append, List.length_replicate]
  have := natToChars_length_le f len hf h1
  omega

theorem digitsVal_fracChars (f len : Nat) : digitsVal (fracChars f len) = f := by
  unfold fracChars
  rw [digitsVal_replicate_zero_append]
  exact digitsVal_natToChars f

theorem takeWhile_append_all {p : Char → Bool} (l r : List Char)
    (h : ∀ c ∈ l, p c = true) :
    (l ++ r).takeWhile p = l ++ r.takeWhile p := by
  induction l with
  | nil => simp
  | cons c t iht =>
    rw [List.cons_append, List.takeWhile_cons_of_pos (h c (by simp)),
      iht fun c2 hc2 => h c2 (by simp [hc2]), List.cons_append]

theorem dropWhile_append_all {p : Char → Bool} (l r : List Char)
    (h : ∀ c ∈ l, p c = true) :
    (l ++ r).dropWhile p = r.dropWhile p := by
  induction l with
  | nil => simp
  | cons c t iht =>
    rw [List.cons_append, List.dropWhile_cons_of_pos (h c (by simp)),
      iht fun c2 hc2 => h c2 (by simp [hc2])]

theorem delim_not_digit (rest : List Char) (hd : DelimOK rest) :
    rest.takeWhile Char.isDigit = [] ∧ rest.dropWhile Char.isDigit = rest := by
  rcases hd with h | ⟨t, h⟩ | ⟨t, h⟩ | ⟨t, h⟩ <;> subst h <;> exact ⟨rfl, rfl⟩

theorem parseDigits_append (n : Nat) (rest : List Char)
    (h1 : rest.takeWhile Char.isDigit = [])
    (h2 : rest.dropWhile Char.isDigit = rest) :
    parseDigits (natToChars n ++ rest) =
      some (n, (natToChars n).length, rest) := by
  unfold parseDigits
  rw [takeWhile_append_all _ _ (natToChars_digits n), h1, List.append_nil,
    dropWhile_append_all _ _ (natToChars_digits n), h2]
  obtain ⟨c, cs, hc⟩ := List.exists_cons_of_ne_nil (natToChars_ne_nil n)
  rw [hc]
  show some (digitsVal (c :: cs), (c :: cs).length, rest) =
    some (n, (c :: cs).length, rest)
  rw [← hc, digitsVal_natToChars]

theorem parseStrAux_esc : ∀ (s rest : List Char),
    parseStrAux false (escList s ++ '"' :: rest) = some (s, rest) := by
  intro s
  induction s with
  | nil => intro rest; rfl
  | cons c cs ih =>
    intro rest
    show parseStrAux false ((escChar c ++ escList cs) ++ '"' :: rest) = _
    rw [List.append_assoc]
    by_cases h1 : c = '"'
    · subst h1
      show parseStrAux true ('"' :: (escList cs ++ '"' :: rest)) = _
      simp only [parseStrAux, unescChar, ih rest]
      rfl
    · by_cases h2 : c = '\\'
      · subst h2
        show parseStrAux true ('\\' :: (escList cs ++ '"' :: rest)) = _
        simp only [parseStrAux, unescChar, ih rest]
        rfl
      · by_cases h3 : c = '\n'
        · subst h3
          show parseStrAux true ('n' :: (escList cs ++ '"' :: rest)) = _
          simp only [parseStrAux, unescChar, ih rest]
          rfl
        · by_cases h4 : c = '\t'
          · subst h4
            show parseStrAux true ('t' :: (escList cs ++ '"' :: rest)) = _
            simp only [parseStrAux, unescChar, ih rest]
            rfl
          · by_cases h5 : c = '\r'
            · subst h5
              show parseStrAux true ('r' :: (escList cs ++ '"' :: rest)) = _
              simp only [parseStrAux, unescChar, ih rest]
              rfl
            · show parseStrAux false
                  ((escChar c) ++ (escList cs ++ '"' :: rest)) = _
              unfold escChar
              rw [if_neg h1, if_neg h2, if_neg h3, if_neg h4, if_neg h5]
              show parseStrAux false (c :: (escList cs ++ '"' :: rest)) = _
              simp only [parseStrAux]
              rw [if_neg h1, if_neg h2, ih rest]

theorem parseNumber_nat (neg : Bool) (n : Nat) (rest : List Char)
    (hd : DelimOK rest) :
    parseNumber neg (natToChars n ++ rest) = some (intResult neg n, rest) := by
  obtain ⟨h1, h2⟩ := delim_not_digit rest hd
  unfold parseNumber
  rw [parseDigits_append n rest h1 h2]
  rcases hd with h | ⟨t, h⟩ | ⟨t, h⟩ | ⟨t, h⟩ <;> subst h <;> rfl

theorem fracChars_ne_nil (f len : Nat) : fracChars f len ≠ [] := by
  unfold fracChars
  intro hcon
  exact natToChars_ne_nil f (List.append_eq_nil.mp hcon).2

theorem parseDigits_fracChars (f len : Nat) (hf : f < 10 ^ len)
    (hlen : 1 ≤ len) (rest : List Char) (hd : DelimOK rest) :
    parseDigits (fracChars f len ++ rest) = some (f, len, rest) := by
  unfold parseDigits
  obtain ⟨d1, d2⟩ := delim_not_digit rest hd
  rw [takeWhile_append_all _ _ (fracChars_digits f len), d1, List.append_nil,
    dropWhile_append_all _ _ (fracChars_digits f len), d2]
  obtain ⟨c, cs, hc⟩ := List.exists_cons_of_ne_nil (fracChars_ne_nil f len)
  rw [hc]
  show some (digitsVal (c :: cs), (c :: cs).length, rest) =
    some (f, len, rest)
  rw [← hc, digitsVal_fracChars, fracChars_length f len hf hlen]

theorem parseNumber_float (neg : Bool) (ip fr len : Nat)
    (hfr : fr < 10 ^ len) (hlen : 1 ≤ len) (rest : List Char)
    (hd : DelimOK rest) :
    parseNumber neg (natToChars ip ++ '.' :: (fracChars fr len ++ rest)) =
      some (floatResult neg (ip * 10 ^ len + fr) len, rest) := by
  unfold parseNumber
  rw [parseDigits_append ip ('.' :: (fracChars fr len ++ rest)) rfl rfl]
  show (match parseDigits (fracChars fr len ++ rest) with
    | none => none
    | some (f, fl, rest3) =>
      some (floatResult neg (ip * 10 ^ fl + f) fl, rest3)) = _
  rw [parseDigits_fracChars fr len hfr hlen rest hd]

theorem char_digit_ne_rbrack {c : Char} (h : c.isDigit = true) :
    c ≠ ']' ∧ c ≠ '\x7d' := by
  constructor <;> intro he <;> rw [he] at h <;> exact absurd h (by decide)

theorem descr_head (v : Value) :
    ∃ c t, descrChars v = c :: t ∧ c ≠ ']' ∧ c ≠ '\x7d' := by
  cases v with
  | undefined => exact ⟨'u', _, rfl, by decide, by decide⟩
  | vnull => exact ⟨'n', _, rfl, by decide, by decide⟩
  | vbool b =>
    cases b
    · exact ⟨'f', _, rfl, by decide, by decide⟩
    · exact ⟨'t', _, rfl, by decide, by decide⟩
  | vint i =>
    show ∃ c t, intToChars i = c :: t ∧ _
    unfold intToChars
    by_cases h : i < 0
    · rw [if_pos h]
      exact ⟨'-', _, rfl, by decide, by decide⟩
    · rw [if_neg h]
      obtain ⟨c, cs, hc⟩ := List.exists_cons_of_ne_nil (natToChars_ne_nil i.natAbs)
      have hdig : c.isDigit = true := natToChars_digits _ c (by rw [hc]; simp)
      obtain ⟨n1, n2⟩ := char_digit_ne_rbrack hdig
      exact ⟨c, cs, hc, n1, n2⟩
  | vuint n =>
    show ∃ c t, natToChars n = c :: t ∧ _
    obtain ⟨c, cs, hc⟩ := List.exists_cons_of_ne_nil (natToChars_ne_nil n)
    have hdig : c.isDigit = true := natToChars_digits _ c (by rw [hc]; simp)
    obtain ⟨n1, n2⟩ := char_digit_ne_rbrack hdig
    exact ⟨c, cs, hc, n1, n2⟩
  | vfloat m e =>
    show ∃ c t, floatChars m e = c :: t ∧ _
    unfold floatChars
    by_cases h : m < 0
    · rw [if_pos h]
      exact ⟨'-', _, rfl, by decide, by decide⟩
    · rw [if_neg h]
      obtain ⟨c, cs, hc⟩ :=
        List.exists_cons_of_ne_nil (natToChars_ne_nil (m.natAbs / 10 ^ (e + 1)))
      have hdig : c.isDigit = true := natToChars_digits _ c (by rw [hc]; simp)
      obtain ⟨n1, n2⟩ := char_digit_ne_rbrack hdig
      rw [hc]
      exact ⟨c, _, rfl, n1, n2⟩
  | vstring s => exact ⟨'"', _, rfl, by decide, by decide⟩
  | vobject b =>
    cases b
    · exact ⟨'<', _, rfl, by decide, by decide⟩
    · exact ⟨'<', _, rfl, by decide, by decide⟩
  | varray xs => exact ⟨'[', _, rfl, by decide, by decide⟩
  | vmap l => exact ⟨'\x7b', _, rfl, by decide, by decide⟩
  | mapref l => exact ⟨'\x7b', _, rfl, by decide, by decide⟩
  | vfunction f => exact ⟨'<', _, rfl, by decide, by decide⟩

theorem descrElems_cons_head (x : Value) (xs : List Value) :
    ∃ c t, descrElems (x :: xs) = c :: t ∧ c ≠ ']' ∧ c ≠ '\x7d' := by
  obtain ⟨c, t, hct, h1, h2⟩ := descr_head x
  cases xs with
  | nil => exact ⟨c, t, by simp [descrElems, hct], h1, h2⟩
  | cons y ys =>
    exact ⟨c, t ++ ',' :: descrElems (y :: ys),
      by simp [descrElems, hct], h1, h2⟩

theorem joinEntries_render_head (p : String × Value)
    (l : List (String × Value)) :
    ∃ t, joinEntries (renderEntries (p :: l)) = '"' :: t := by
  obtain ⟨k, v⟩ := p
  cases l with
  | nil => exact ⟨_, rfl⟩
  | cons q l2 =>
    obtain ⟨k2, v2⟩ := q
    exact ⟨_, rfl⟩

theorem keyLtB_le : ∀ a b : List Char, keyLtB a b = true → keyLeB a b = true := by
  intro a
  induction a with
  | nil => intro b _; rfl
  | cons x xs ih =>
    intro b h
    cases b with
    | nil => simp [keyLtB] at h
    | cons y ys =>
      simp only [keyLtB] at h
      simp only [keyLeB]
      rcases Nat.lt_trichotomy x.toNat y.toNat with hxy | hxy | hxy
      · rw [if_pos hxy]
      · rw [if_neg (by omega), if_neg (by omega)] at h ⊢
        exact ih ys h
      · rw [if_neg (by omega), if_pos hxy] at h
        exact absurd h (by decide)

theorem chain_of_sortedKeys : ∀ l : List (String × Value),
    sortedKeysB l = true → List.Chain' entryLe (renderEntries l) := by
  intro l
  induction l with
  | nil => intro _; simp [renderEntries]
  | cons p rest ih =>
    intro h
    obtain ⟨a, va⟩ := p
    cases rest with
    | nil => simp [renderEntries]
    | cons q rest2 =>
      obtain ⟨b, vb⟩ := q
      simp only [sortedKeysB, Bool.and_eq_true] at h
      show List.Chain' entryLe
        ((a, descrChars va) :: (b, descrChars vb) :: renderEntries rest2)
      rw [List.chain'_cons]
      exact ⟨keyLtB_le a.data b.data h.1, ih h.2⟩

theorem insertionSort_chain_eq : ∀ l : List (String × List Char),
    List.Chain' entryLe l → sortEntries l = l := by
  intro l
  induction l with
  | nil => intro _; rfl
  | cons a t ih =>
    intro h
    show List.insertionSort entryLe (a :: t) = a :: t
    rw [List.insertionSort, show List.insertionSort entryLe t = t from ih h.tail]
    cases t with
    | nil => rfl
    | cons b t2 =>
      have hab : entryLe a b := (List.chain'_cons.mp h).1
      exact List.orderedInsert_of_le entryLe t2 hab

theorem parseV_digit_head (f : Nat) (c : Char) (cs : List Char)
    (hdig : c.isDigit = true) :
    parseV (f + 1) (c :: cs) = parseNumber false (c :: cs) := by
  have h1 : ¬c = 'n' := by
    intro h
    rw [h] at hdig
    exact absurd hdig (by decide)
  have h2 : ¬c = 't' := by
    intro h
    rw [h] at hdig
    exact absurd hdig (by decide)
  have h3 : ¬c = 'f' := by
    intro h
    rw [h] at hdig
    exact absurd hdig (by decide)
  have h4 : ¬c = 'u' := by
    intro h
    rw [h] at hdig
    exact absurd hdig (by decide)
  have h5 : ¬c = '"' := by
    intro h
    rw [h] at hdig
    exact absurd hdig (by decide)
  have h6 : ¬c = '[' := by
    intro h
    rw [h] at hdig
    exact absurd hdig (by decide)
  have h7 : ¬c = '\x7b' := by
    intro h
    rw [h] at hdig
    exact absurd hdig (by decide)
  have h8 : ¬c = '-' := by
    intro h
    rw [h] at hdig
    exact absurd hdig (by decide)
  simp only [parseV]
  rw [if_neg h1, if_neg h2, if_neg h3, if_neg h4, if_neg h5, if_neg h6,
    if_neg h7, if_neg h8, if_pos hdig]

theorem rt_undefined : RTV .undefined := by
  intro _ f rest hf _
  cases f with
  | zero =>
    have h1 : needV Value.undefined = 1 := rfl
    omega
  | succ f2 => rfl

theorem rt_null : RTV .vnull := by
  intro _ f rest hf _
  cases f with
  | zero =>
    have h1 : needV Value.vnull = 1 := rfl
    omega
  | succ f2 => rfl

theorem rt_bool : ∀ b : Bool, RTV (.vbool b) := by
  intro b _ f rest hf _
  cases f with
  | zero =>
    have h1 : needV (Value.vbool b) = 1 := rfl
    omega
  | succ f2 =>
    cases b with
    | false => rfl
    | true => rfl

theorem rt_string : ∀ s : String, RTV (.vstring s) := by
  intro s _ f rest hf _
  cases f with
  | zero =>
    have h1 : needV (Value.vstring s) = 1 := rfl
    omega
  | succ f2 =>
    show parseV (f2 + 1)
      (('"' :: (escList s.data ++ ['"'])) ++ rest) = some (.vstring s, rest)
    rw [List.cons_append, List.append_assoc]
    calc parseV (f2 + 1) ('"' :: (escList s.data ++ (['"'] ++ rest)))
        = (match parseStrAux false (escList s.data ++ ('"' :: rest)) with
           | some (s2, r2) => some (Value.vstring ⟨s2⟩, r2)
           | none => none) := rfl
      _ = some (.vstring s, rest) := by rw [parseStrAux_esc]

theorem rt_int : ∀ i : Int, RTV (.vint i) := by
  intro i hc f rest hf hd
  have hbound : -(2 ^ 63 : Int) ≤ i ∧ i < 2 ^ 63 := by
    have : (decide (-(2 ^ 63 : Int) ≤ i) && decide (i < 2 ^ 63)) = true := hc
    simp at this
    exact this
  cases f with
  | zero =>
    have h1 : needV (Value.vint i) = 1 := rfl
    omega
  | succ f2 =>
    by_cases hneg : i < 0
    · have hdescr : descrChars (.vint i) = '-' :: natToChars i.natAbs := by
        show intToChars i = _
        unfold intToChars
        rw [if_pos hneg]
      rw [hdescr, List.cons_append]
      calc parseV (f2 + 1) ('-' :: (natToChars i.natAbs ++ rest))
          = parseNumber true (natToChars i.natAbs ++ rest) := rfl
        _ = some (intResult true i.natAbs, rest) :=
            parseNumber_nat true i.natAbs rest hd
        _ = some (.vint i, rest) := by
            unfold intResult
            rw [if_pos rfl]
            have he : -((i.natAbs : Nat) : Int) = i := by omega
            rw [he]
    · have hdescr : descrChars (.vint i) = natToChars i.natAbs := by
        show intToChars i = _
        unfold intToChars
        rw [if_neg hneg]
      rw [hdescr]
      obtain ⟨c, cs, hcons⟩ :=
        List.exists_cons_of_ne_nil (natToChars_ne_nil i.natAbs)
      have hdig := natToChars_digits i.natAbs c (by rw [hcons]; simp)
      rw [hcons, List.cons_append, parseV_digit_head f2 c (cs ++ rest) hdig,
        ← List.cons_append, ← hcons,
        parseNumber_nat false i.natAbs rest hd]
      unfold intResult
      rw [if_neg (by decide), if_pos (by unfold int64Bound; omega)]
      have he : ((i.natAbs : Nat) : Int) = i := by omega
      rw [he]

theorem rt_uint : ∀ n : Nat, RTV (.vuint n) := by
  intro n hc f rest hf hd
  have hbound : 2 ^ 63 ≤ n ∧ n < 2 ^ 64 := by
    have : (decide (2 ^ 63 ≤ n) && decide (n < 2 ^ 64)) = true := hc
    simp at this
    exact this
  cases f with
  | zero =>
    have h1 : needV (Value.vuint n) = 1 := rfl
    omega
  | succ f2 =>
    show parseV (f2 + 1) (natToChars n ++ rest) = some (.vuint n, rest)
    obtain ⟨c, cs, hcons⟩ := List.exists_cons_of_ne_nil (natToChars_ne_nil n)
    have hdig := natToChars_digits n c (by rw [hcons]; simp)
    rw [hcons, List.cons_append, parseV_digit_head f2 c (cs ++ rest) hdig,
      ← List.cons_append, ← hcons, parseNumber_nat false n rest hd]
    unfold intResult
    rw [if_neg (by decide), if_neg (by unfold int64Bound; omega)]

theorem rt_float : ∀ (m : Int) (e : Nat), RTV (.vfloat m e) := by
  intro m e _ f rest hf hd
  have hD : 0 < 10 ^ (e + 1) := Nat.pos_pow_of_pos _ (by omega)
  have hfr : m.natAbs % 10 ^ (e + 1) < 10 ^ (e + 1) := Nat.mod_lt _ hD
  have hsum : m.natAbs / 10 ^ (e + 1) * 10 ^ (e + 1) +
      m.natAbs % 10 ^ (e + 1) = m.natAbs := by
    have h := Nat.div_add_mod m.natAbs (10 ^ (e + 1))
    rw [Nat.mul_comm] at h
    exact h
  cases f with
  | zero =>
    have h1 : needV (Value.vfloat m e) = 1 := rfl
    omega
  | succ f2 =>
    by_cases hneg : m < 0
    · have hshape : descrChars (.vfloat m e) ++ rest =
          '-' :: (natToChars (m.natAbs / 10 ^ (e + 1)) ++
            '.' :: (fracChars (m.natAbs % 10 ^ (e + 1)) (e + 1) ++ rest)) := by
        show floatChars m e ++ rest = _
        unfold floatChars
        rw [if_pos hneg]
        simp [List.append_assoc]
      rw [hshape]
      calc parseV (f2 + 1) ('-' :: (natToChars (m.natAbs / 10 ^ (e + 1)) ++
            '.' :: (fracChars (m.natAbs % 10 ^ (e + 1)) (e + 1) ++ rest)))
          = parseNumber true (natToChars (m.natAbs / 10 ^ (e + 1)) ++
            '.' :: (fracChars (m.natAbs % 10 ^ (e + 1)) (e + 1) ++ rest)) := rfl
        _ = some (floatResult true (m.natAbs / 10 ^ (e + 1) * 10 ^ (e + 1) +
              m.natAbs % 10 ^ (e + 1)) (e + 1), rest) :=
            parseNumber_float true _ _ _ hfr (by omega) rest hd
        _ = some (.vfloat m e, rest) := by
            rw [hsum]
            unfold floatResult
            rw [if_pos rfl]
            have he : -((m.natAbs : Nat) : Int) = m := by omega
            rw [he]
            have he2 : e + 1 - 1 = e := by omega
            rw [he2]
    · have hshape : descrChars (.vfloat m e) ++ rest =
          natToChars (m.natAbs / 10 ^ (e + 1)) ++
            '.' :: (fracChars (m.natAbs % 10 ^ (e + 1)) (e + 1) ++ rest) := by
        show floatChars m e ++ rest = _
        unfold floatChars
        rw [if_neg hneg]
        simp [List.append_assoc]
      rw [hshape]
      obtain ⟨c, cs, hcons⟩ := List.exists_cons_of_ne_nil
        (natToChars_ne_nil (m.natAbs / 10 ^ (e + 1)))
      have hdig := natToChars_digits _ c (by rw [hcons]; simp)
      rw [hcons, List.cons_append, parseV_digit_head f2 c _ hdig,
        ← List.cons_append, ← hcons,
        parseNumber_float false _ _ _ hfr (by omega) rest hd, hsum]
      unfold floatResult
      rw [if_neg (by decide)]
      have he : ((m.natAbs : Nat) : Int) = m := by omega
      rw [he]
      have he2 : e + 1 - 1 = e := by omega
      rw [he2]

theorem rt_object : ∀ b : Bridge, RTV (.vobject b) := by
  intro b hc
  simp [canonV] at hc

theorem rt_mapref : ∀ l : List (String × Value), RTEntries l →
    RTV (.mapref l) := by
  intro l _ hc
  simp [canonV] at hc

theorem rt_function : ∀ s : String, RTV (.vfunction s) := by
  intro s hc
  simp [canonV] at hc

theorem rt_array : ∀ xs : List Value, RTElems xs → RTV (.varray xs) := by
  intro xs ih hc f rest hf hd
  have hneed : needV (Value.varray xs) = 1 + needElems xs := rfl
  cases f with
  | zero => omega
  | succ f2 =>
    have hshape : descrChars (.varray xs) ++ rest =
        '[' :: (descrElems xs ++ (']' :: rest)) := by
      show ('[' :: (descrElems xs ++ [']'])) ++ rest = _
      rw [List.cons_append, List.append_assoc]
      rfl
    rw [hshape]
    cases xs with
    | nil => rfl
    | cons x xs2 =>
      obtain ⟨ce, te, hce, hne1, _⟩ := descrElems_cons_head x xs2
      have helems := ih (by simp) hc f2 rest (by omega) hd
      rw [hce, List.cons_append]
      show (if some ce = some ']' then
              some (Value.varray [], te ++ ']' :: rest)
            else match parseElems f2 (ce :: (te ++ ']' :: rest)) with
              | some (vs2, r2) => some (Value.varray vs2, r2)
              | none => none) = some (Value.varray (x :: xs2), rest)
      rw [if_neg (by simp [hne1]), ← List.cons_append, ← hce, helems]

theorem rtElems_nil : RTElems [] := by
  intro hne
  exact absurd rfl hne

theorem rtElems_cons : ∀ (x : Value) (xs : List Value),
    RTV x → RTElems xs → RTElems (x :: xs) := by
  intro x xs ihx ihxs _ hc f rest hf hd
  have hcx : canonV x = true ∧ canonElems xs = true := by
    have : (canonV x && canonElems xs) = true := hc
    simp at this
    exact this
  have hneed : needElems (x :: xs) = 1 + max (needV x) (needElems xs) := rfl
  cases f with
  | zero => omega
  | succ f2 =>
    cases xs with
    | nil =>
      have hx := ihx hcx.1 f2 (']' :: rest) (by omega)
        (Or.inr (Or.inr (Or.inl ⟨rest, rfl⟩)))
      show parseElems (f2 + 1) (descrChars x ++ ']' :: rest) = some ([x], rest)
      simp only [parseElems, hx]
    | cons y ys =>
      have hshape : descrElems (x :: y :: ys) ++ ']' :: rest =
          descrChars x ++ ',' :: (descrElems (y :: ys) ++ ']' :: rest) := by
        show (descrChars x ++ ',' :: descrElems (y :: ys)) ++ ']' :: rest = _
        rw [List.append_assoc]
        rfl
      rw [hshape]
      have hx := ihx hcx.1 f2 (',' :: (descrElems (y :: ys) ++ ']' :: rest))
        (by omega) (Or.inr (Or.inl ⟨_, rfl⟩))
      have hrest := ihxs (by simp) hcx.2 f2 rest (by omega) hd
      simp only [parseElems, hx, hrest]

theorem rt_map : ∀ l : List (String × Value), RTEntries l → RTV (.vmap l) := by
  intro l ih hc f rest hf hd
  have hcs : sortedKeysB l = true ∧ canonEntries l = true := by
    have : (sortedKeysB l && canonEntries l) = true := hc
    simp at this
    exact this
  have hneed : needV (Value.vmap l) = 1 + needEntries l := rfl
  cases f with
  | zero => omega
  | succ f2 =>
    have hsort : sortEntries (renderEntries l) = renderEntries l :=
      insertionSort_chain_eq _ (chain_of_sortedKeys l hcs.1)
    cases l with
    | nil => rfl
    | cons p l2 =>
      have hshape : descrChars (.vmap (p :: l2)) ++ rest =
          '\x7b' :: (joinEntries (renderEntries (p :: l2)) ++ '\x7d' :: rest) := by
        show ('\x7b' :: (joinEntries (sortEntries (renderEntries (p :: l2))) ++
          ['\x7d'])) ++ rest = _
        rw [hsort, List.cons_append, List.append_assoc]
        rfl
      rw [hshape]
      obtain ⟨tj, htj⟩ := joinEntries_render_head p l2
      have hent := ih (by simp) hcs.2 f2 rest (by omega) hd
      rw [htj, List.cons_append]
      show (if some '"' = some '\x7d' then
              some (Value.vmap [], tj ++ '\x7d' :: rest)
            else match parseEntries f2 ('"' :: (tj ++ '\x7d' :: rest)) with
              | some (l3, r2) => some (Value.vmap l3, r2)
              | none => none) = some (Value.vmap (p :: l2), rest)
      rw [if_neg (by decide), ← List.cons_append, ← htj, hent]

theorem rtEntries_nil : RTEntries [] := by
  intro hne
  exact absurd rfl hne

theorem rtEntries_cons : ∀ (p : String × Value) (l : List (String × Value)),
    RTV p.2 → RTEntries l → RTEntries (p :: l) := by
  intro p l ihp ihl _ hc f rest hf hd
  obtain ⟨k, v⟩ := p
  have ihv : RTV v := ihp
  have hcx : canonV v = true ∧ canonEntries l = true := by
    have : (canonV v && canonEntries l) = true := hc
    simp at this
    exact this
  have hneed : needEntries ((k, v) :: l) =
      1 + max (needV v) (needEntries l) := rfl
  cases f with
  | zero => omega
  | succ f2 =>
    cases l with
    | nil =>
      have hshape : joinEntries (renderEntries [(k, v)]) ++ '\x7d' :: rest =
          '"' :: (escList k.data ++ '"' ::
            (':' :: ' ' :: (descrChars v ++ '\x7d' :: rest))) := by
        show (quoteChars k ++ ':' :: ' ' :: descrChars v) ++ '\x7d' :: rest = _
        simp only [quoteChars, List.append_assoc, List.cons_append,
          List.singleton_append, List.nil_append]
      rw [hshape]
      have hk := parseStrAux_esc k.data
        (':' :: ' ' :: (descrChars v ++ '\x7d' :: rest))
      have hv := ihv hcx.1 f2 ('\x7d' :: rest) (by omega)
        (Or.inr (Or.inr (Or.inr ⟨rest, rfl⟩)))
      simp only [parseEntries, hk, hv]
    | cons q l2 =>
      have hshape : joinEntries (renderEntries ((k, v) :: q :: l2)) ++
          '\x7d' :: rest =
          '"' :: (escList k.data ++ '"' :: (':' :: ' ' ::
            (descrChars v ++ ',' :: ' ' ::
              (joinEntries (renderEntries (q :: l2)) ++ '\x7d' :: rest)))) := by
        obtain ⟨k2, v2⟩ := q
        show (quoteChars k ++ ':' :: ' ' :: descrChars v ++ ',' :: ' ' ::
          joinEntries (renderEntries ((k2, v2) :: l2))) ++ '\x7d' :: rest = _
        simp only [quoteChars, List.append_assoc, List.cons_append,
          List.singleton_append, List.nil_append]
      rw [hshape]
      have hk := parseStrAux_esc k.data (':' :: ' ' ::
        (descrChars v ++ ',' :: ' ' ::
          (joinEntries (renderEntries (q :: l2)) ++ '\x7d' :: rest)))
      have hv := ihv hcx.1 f2 (',' :: ' ' ::
        (joinEntries (renderEntries (q :: l2)) ++ '\x7d' :: rest)) (by omega)
        (Or.inr (Or.inl ⟨_, rfl⟩))
      have hl := ihl (by simp) hcx.2 f2 rest (by omega) hd
      simp only [parseEntries, hk, hv, hl]

theorem roundtrip_value : ∀ v : Value, RTV v :=
  fun v =>
    @Value.rec RTV RTElems RTEntries (fun p => RTV p.2)
      rt_undefined rt_null rt_bool rt_int rt_uint rt_float rt_string
      rt_object rt_array rt_map rt_mapref rt_function
      rtElems_nil rtElems_cons rtEntries_nil rtEntries_cons
      (fun _ _ ih => ih) v

theorem descrChars_pos (v : Value) : 1 ≤ (descrChars v).length := by
  obtain ⟨c, t, hct, _, _⟩ := descr_head v
  rw [hct]
  simp

theorem needV_le_length : ∀ v : Value, canonV v = true →
    needV v ≤ (descrChars v).length := by
  intro v
  refine @Value.rec
    (fun v2 => canonV v2 = true → needV v2 ≤ (descrChars v2).length)
    (fun xs => canonElems xs = true →
      needElems xs ≤ (descrElems xs).length + 1)
    (fun l => canonEntries l = true →
      needEntries l ≤ (joinEntries (renderEntries l)).length + 1)
    (fun p => canonV p.2 = true → needV p.2 ≤ (descrChars p.2).length)
    ?_ ?_ ?_ ?_ ?_ ?_ ?_ ?_ ?_ ?_ ?_ ?_ ?_ ?_ ?_ ?_ ?_ v
  · intro _
    have h1 : needV Value.undefined = 1 := rfl
    have h2 := descrChars_pos .undefined
    omega
  · intro _
    have h1 : needV Value.vnull = 1 := rfl
    have h2 := descrChars_pos .vnull
    omega
  · intro b _
    have h1 : needV (Value.vbool b) = 1 := rfl
    have h2 := descrChars_pos (.vbool b)
    omega
  · intro i _
    have h1 : needV (Value.vint i) = 1 := rfl
    have h2 := descrChars_pos (.vint i)
    omega
  · intro n _
    have h1 : needV (Value.vuint n) = 1 := rfl
    have h2 := descrChars_pos (.vuint n)
    omega
  · intro m e _
    have h1 : needV (Value.vfloat m e) = 1 := rfl
    have h2 := descrChars_pos (.vfloat m e)
    omega
  · intro s _
    have h1 : needV (Value.vstring s) = 1 := rfl
    have h2 := descrChars_pos (.vstring s)
    omega
  · intro b hc
    simp [canonV] at hc
  · intro xs ih hc
    have hce : canonElems xs = true := hc
    have h1 : needV (Value.varray xs) = 1 + needElems xs := rfl
    have h2 : (descrChars (Value.varray xs)).length =
        (descrElems xs).length + 2 := by
      show ('[' :: (descrElems xs ++ [']'])).length = _
      simp
    have := ih hce
    omega
  · intro l ih hc
    have hcs : sortedKeysB l = true ∧ canonEntries l = true := by
      have h0 : (sortedKeysB l && canonEntries l) = true := hc
      simp at h0
      exact h0
    have hsort : sortEntries (renderEntries l) = renderEntries l :=
      insertionSort_chain_eq _ (chain_of_sortedKeys l hcs.1)
    have h1 : needV (Value.vmap l) = 1 + needEntries l := rfl
    have h2 : (descrChars (Value.vmap l)).length =
        (joinEntries (renderEntries l)).length + 2 := by
      show ('\x7b' :: (joinEntries (sortEntries (renderEntries l)) ++
        ['\x7d'])).length = _
      rw [hsort]
      simp
    have := ih hcs.2
    omega
  · intro l _ hc
    simp [canonV] at hc
  · intro s hc
    simp [canonV] at hc
  · intro _
    have h1 : needElems ([] : List Value) = 1 := rfl
    simp [descrElems]
    omega
  · intro x xs ih1 ih2 hc
    have hcx : canonV x = true ∧ canonElems xs = true := by
      have h0 : (canonV x && canonElems xs) = true := hc
      simp at h0
      exact h0
    have hneed : needElems (x :: xs) = 1 + max (needV x) (needElems xs) := rfl
    have hx := ih1 hcx.1
    have hpos := descrChars_pos x
    cases xs with
    | nil =>
      have hlen : descrElems [x] = descrChars x := rfl
      have hn2 : needElems ([] : List Value) = 1 := rfl
      rw [hlen]
      omega
    | cons y ys =>
      have hlen : (descrElems (x :: y :: ys)).length =
          (descrChars x).length + 1 + (descrElems (y :: ys)).length := by
        show (descrChars x ++ ',' :: descrElems (y :: ys)).length = _
        simp
        omega
      have := ih2 hcx.2
      omega
  · intro _
    have h1 : needEntries ([] : List (String × Value)) = 1 := rfl
    simp [renderEntries, joinEntries]
    omega
  · intro p l ihp ihl hc
    obtain ⟨k, v2⟩ := p
    have hcx : canonV v2 = true ∧ canonEntries l = true := by
      have h0 : (canonV v2 && canonEntries l) = true := hc
      simp at h0
      exact h0
    have hneed : needEntries ((k, v2) :: l) =
        1 + max (needV v2) (needEntries l) := rfl
    have hv : needV v2 ≤ (descrChars v2).length := ihp hcx.1
    have hpos := descrChars_pos v2
    cases l with
    | nil =>
      have hlen : (joinEntries (renderEntries [(k, v2)])).length =
          (escList k.data).length + 4 + (descrChars v2).length := by
        show (quoteChars k ++ ':' :: ' ' :: descrChars v2).length = _
        simp [quoteChars]
        omega
      have hn2 : needEntries ([] : List (String × Value)) = 1 := rfl
      omega
    | cons q l2 =>
      obtain ⟨k2, w2⟩ := q
      have hlen : (joinEntries (renderEntries ((k, v2) :: (k2, w2) :: l2))).length =
          (escList k.data).length + 6 + (descrChars v2).length +
            (joinEntries (renderEntries ((k2, w2) :: l2))).length := by
        show (quoteChars k ++ ':' :: ' ' :: descrChars v2 ++ ',' :: ' ' ::
          joinEntries (renderEntries ((k2, w2) :: l2))).length = _
        simp [quoteChars]
        omega
      have := ihl hcx.2
      omega
  · intro k v2 ih
    exact ih

/-- C8 counterexample: three canonical-form failures of the claim as
stated.  A UInteger below `2^63` prints as plain digits and parses back as
an Integer; a Map whose insertion order is not lexicographic prints with
sorted keys and parses back reordered; an Object (Expression bridge) — not
excluded by the claim — prints as a class marker that does not parse at
all. -/
theorem C8_roundtrip_counterexample :
    parse (descr (.vuint 5)) = some (.vint 5) ∧
    some (Value.vint 5) ≠ some (Value.vuint 5) ∧
    parse (descr (.vmap [("b", .vnull), ("a", .vnull)])) =
      some (.vmap [("a", .vnull), ("b", .vnull)]) ∧
    some (Value.vmap [("a", .vnull), ("b", .vnull)]) ≠
      some (Value.vmap [("b", .vnull), ("a", .vnull)]) ∧
    parse (descr (.vobject (.expression "1+1"))) = none := by
  refine ⟨rfl, ?_, rfl, ?_, rfl⟩
  · intro h
    simp at h
  · intro h
    simp at h

/-- C8 amended: `parse (descr v) = v` for every canonical Tagged Value:
one containing no Object, Function or MapRef, whose Integer payloads are
within signed 64-bit range, whose UInteger payloads are in `[2^63, 2^64)`,
and whose maps are already in strictly sorted key order. -/
theorem C8_parse_descr_roundtrip : ∀ v : Value, canonV v = true →
    parse (descr v) = some v := by
  intro v hc
  have hb := needV_le_length v hc
  have h := roundtrip_value v hc ((descrChars v).length + 1) [] (by omega)
    (Or.inl rfl)
  rw [List.append_nil] at h
  unfold parse descr
  rw [show ((⟨descrChars v⟩ : String).data) = descrChars v from rfl, h]

/-- C8 amended, concrete instance: a nested canonical value — a map with
sorted keys holding an array, a negative float, a big unsigned and an
escaped string — round-trips through descr and parse. -/
theorem C8_parse_descr_roundtrip_witness :
    parse (descr (Value.vmap
      [("a", .varray [.vint 1, .vstring "x\"y"]),
       ("b", .vfloat (-25) 1),
       ("c", .vuint 9223372036854775808)])) =
    some (Value.vmap
      [("a", .varray [.vint 1, .vstring "x\"y"]),
       ("b", .vfloat (-25) 1),
       ("c", .vuint 9223372036854775808)]) :=
  C8_parse_descr_roundtrip _ (by decide)

end MysqlShell
